import Mathlib

/-!
Shallow embedding of the ISYGLT Home Assistant integration's command
serialization core (`helpers.py`: `HubCommand`, `ModbusQueue`,
`IsyGltModbusMixin`) and of the config-time bulk-range computation
(`__init__.py`: `async_setup`).

Python futures are modelled by identifiers pointing into an association
list of future states; the asyncio priority queue is modelled as a list
from which the worker pops the minimal element under the order generated
by `dataclass(order=True)` on `HubCommand` (compare `priority`, then
`_counter`).  The worker loop is split into two observable steps
(dequeue/start and transport-resolution/finish), because asyncio can
interleave producer calls with the awaited transport call while the
dedup-map entry of the executing read is still present.
-/

namespace ISYGLT

/-- Operation kind of a `HubCommand` (the `op` string field: "read" / "write"). -/
inductive Op where
  | read
  | write
deriving DecidableEq, Repr

/-- One queued bus transaction, mirroring the `HubCommand` dataclass.
`counter` is the `_counter` sequence number, `future` an identifier of the
attached asyncio future. -/
structure HubCommand where
  priority : Int
  counter : Nat
  op : Op
  address : Nat
  length : Nat
  values : Option (List Nat)
  future : Nat
deriving DecidableEq, Repr

/-- Result value placed into a command's future by the worker:
`set_result(result)` of a read (a register list or `None`), or
`set_result(True)` of a write. -/
inductive CmdResult where
  | readResult (v : Option (List Nat))
  | writeOk
deriving DecidableEq, Repr

instance : DecidableEq (Except Nat CmdResult) := fun a b =>
  match a, b with
  | .ok x, .ok y =>
    match decEq x y with
    | isTrue h => isTrue (by rw [h])
    | isFalse h => isFalse (by intro he; cases he; exact h rfl)
  | .ok _, .error _ => isFalse (by intro h; cases h)
  | .error _, .ok _ => isFalse (by intro h; cases h)
  | .error x, .error y =>
    match decEq x y with
    | isTrue h => isTrue (by rw [h])
    | isFalse h => isFalse (by intro he; cases he; exact h rfl)

/-- State of an asyncio future: still pending, or done with a result or an
exception (exceptions are abstracted to a numeric identifier). -/
inductive FutureState where
  | pending
  | done (v : Except Nat CmdResult)
deriving DecidableEq, Repr

/-- Outcome of the transport-layer `async_pb_call` awaited by
`_direct_read` / `_direct_write`: it raises an exception, returns no
result object, returns a result object without register words, or returns
register words.  (For writes the non-exception payload is ignored by
`_direct_write`.) -/
inductive TransportOutcome where
  | exn (e : Nat)
  | pbNone
  | pbNoRegisters
  | pbRegs (rs : List Nat)
deriving DecidableEq, Repr

/-- Translation of `IsyGltModbusMixin._direct_read`: an exception
propagates; a missing result object or missing `registers` attribute
yields `None`; otherwise the register words are returned. -/
def directRead : TransportOutcome → Except Nat (Option (List Nat))
  | .exn e => .error e
  | .pbNone => .ok none
  | .pbNoRegisters => .ok none
  | .pbRegs rs => .ok (some rs)

/-- Translation of `IsyGltModbusMixin._direct_write`: an exception
propagates; any other transport outcome returns normally (the call's
result object is ignored). -/
def directWrite : TransportOutcome → Except Nat Unit
  | .exn e => .error e
  | _ => .ok ()

/-- Lookup in the future table (the association list modelling the heap of
asyncio future objects, keyed by identifier). -/
def flookup (fid : Nat) : List (Nat × FutureState) → Option FutureState
  | [] => none
  | (k, v) :: rest => if k = fid then some v else flookup fid rest

/-- Lookup in the `_pending_reads` dict, keyed by `(address, length)`. -/
def rlookup (key : Nat × Nat) : List ((Nat × Nat) × HubCommand) → Option HubCommand
  | [] => none
  | (k, v) :: rest => if k = key then some v else rlookup key rest

/-- Single-assignment update of one future slot, modelling
`if not fut.done(): fut.set_result / set_exception`: pending becomes done
with `v`; an already done slot is left untouched. -/
def bump (v : Except Nat CmdResult) : FutureState → FutureState
  | .pending => .done v
  | st => st

/-- Resolution of a future: the slot registered under `fid` is bumped. -/
def resolveFuture (futs : List (Nat × FutureState)) (fid : Nat)
    (v : Except Nat CmdResult) : List (Nat × FutureState) :=
  futs.map fun p => if p.1 = fid then (p.1, bump v p.2) else p

/-- Comparison generated by `dataclass(order=True)` on `HubCommand`:
lexicographic on the compare-enabled fields `(priority, _counter)`.
`heapq` (behind `asyncio.PriorityQueue`) pops a minimal element under this
order. -/
def keyLe (a b : HubCommand) : Prop :=
  a.priority < b.priority ∨ (a.priority = b.priority ∧ a.counter ≤ b.counter)

instance (a b : HubCommand) : Decidable (keyLe a b) := by
  unfold keyLe; exact inferInstance

/-- Strict ordering contract from the spec: lower priority first, then
lower sequence number. -/
def cmdLt (a b : HubCommand) : Prop :=
  a.priority < b.priority ∨ (a.priority = b.priority ∧ a.counter < b.counter)

instance (a b : HubCommand) : Decidable (cmdLt a b) := by
  unfold cmdLt; exact inferInstance

/-- Removal of a minimal element (under the `HubCommand` dataclass order)
from the pending list: the model of `await self._queue.get()` on the
`asyncio.PriorityQueue`. -/
def popMin : List HubCommand → Option (HubCommand × List HubCommand)
  | [] => none
  | c :: cs =>
    match popMin cs with
    | none => some (c, [])
    | some (m, rest) =>
      if keyLe c m then some (c, cs) else some (m, c :: rest)

/-- Full state of one `ModbusQueue` together with the heap of futures its
commands refer to. -/
structure QueueState where
  queue : List HubCommand
  counter : Nat
  pendingReads : List ((Nat × Nat) × HubCommand)
  executing : List HubCommand
  futures : List (Nat × FutureState)
  nextFut : Nat
deriving DecidableEq, Repr

/-- State of a freshly constructed `ModbusQueue`. -/
def initState : QueueState :=
  { queue := [], counter := 0, pendingReads := [], executing := [],
    futures := [], nextFut := 0 }

/-- Translation of `ModbusQueue.enqueue_read`: if `(address, length)` is in
`_pending_reads`, return the existing command's future and leave the state
unchanged; otherwise create a fresh future and a fresh command (with
`_next_counter()`), register it in the dedup map, and put it on the
queue. -/
def enqueueRead (s : QueueState) (address length : Nat) (priority : Int) :
    Nat × QueueState :=
  match rlookup (address, length) s.pendingReads with
  | some cmd => (cmd.future, s)
  | none =>
    let fid := s.nextFut
    let cnt := s.counter + 1
    let cmd : HubCommand :=
      { priority := priority, counter := cnt, op := .read, address := address,
        length := length, values := none, future := fid }
    (fid,
      { s with
        counter := cnt
        nextFut := fid + 1
        futures := s.futures ++ [(fid, FutureState.pending)]
        pendingReads := ((address, length), cmd) :: s.pendingReads
        queue := s.queue ++ [cmd] })

/-- Translation of `ModbusQueue.enqueue_write`: always create a fresh
future and a fresh command (length is `len(values)`) and put it on the
queue; the dedup map is not consulted. -/
def enqueueWrite (s : QueueState) (address : Nat) (values : List Nat)
    (priority : Int) : Nat × QueueState :=
  let fid := s.nextFut
  let cnt := s.counter + 1
  let cmd : HubCommand :=
    { priority := priority, counter := cnt, op := .write, address := address,
      length := values.length, values := some values, future := fid }
  (fid,
    { s with
      counter := cnt
      nextFut := fid + 1
      futures := s.futures ++ [(fid, FutureState.pending)]
      queue := s.queue ++ [cmd] })

/-- Value the worker resolves a command's future with, given the transport
outcome: reads get `set_result(_direct_read(...))` or the raised
exception; writes get `set_result(True)` or the raised exception. -/
def workerResult (o : Op) (out : TransportOutcome) : Except Nat CmdResult :=
  match o with
  | .read =>
    match directRead out with
    | .ok v => .ok (.readResult v)
    | .error e => .error e
  | .write =>
    match directWrite out with
    | .ok _ => .ok .writeOk
    | .error e => .error e

/-- Observable events of one bus queue: the two producer calls, the worker
dequeuing its next command (`await self._queue.get()`), and the worker's
transport call resolving with some outcome (body of the try/except/finally
in `ModbusQueue._worker`). -/
inductive Event where
  | enqueueRead (address length : Nat) (priority : Int)
  | enqueueWrite (address : Nat) (values : List Nat) (priority : Int)
  | startExec
  | finishExec (out : TransportOutcome)
deriving DecidableEq, Repr

/-- Small-step semantics of one bus queue.  `startExec` fires only when
the single worker is idle (there is one worker task per queue); it removes
a minimal command from the priority queue.  `finishExec out` resolves the
executing command's future from `out` and, for reads, pops its
`(address, length)` entry from the dedup map in the `finally` block --
on success and on failure alike. -/
def step (s : QueueState) : Event → QueueState
  | .enqueueRead a n p => (enqueueRead s a n p).2
  | .enqueueWrite a vs p => (enqueueWrite s a vs p).2
  | .startExec =>
    match s.executing, popMin s.queue with
    | [], some (c, rest) => { s with queue := rest, executing := [c] }
    | _, _ => s
  | .finishExec out =>
    match s.executing with
    | [] => s
    | cmd :: _ =>
      { s with
        futures := resolveFuture s.futures cmd.future (workerResult cmd.op out)
        pendingReads :=
          if cmd.op = .read then
            s.pendingReads.filter
              (fun p => decide (p.1 ≠ (cmd.address, cmd.length)))
          else s.pendingReads
        executing := [] }

/-- Folding a list of events over the step semantics. -/
def run (s : QueueState) (evs : List Event) : QueueState :=
  evs.foldl step s

/-- States reachable from a freshly constructed queue. -/
def Reachable (s : QueueState) : Prop :=
  ∃ evs, run initState evs = s

/-- Priority used by `async_read_registers` for routine reads
(`priority=1` in helpers.py). -/
def readPriority : Int := 1

/-- Priority used by `async_write_registers` for state changes
(`priority=0` in helpers.py). -/
def writePriority : Int := 0

/-- Translation of the effective body of
`IsyGltModbusMixin.async_read_registers`: enqueue a read at routine
priority and hand back the completion future that is then awaited and
returned.  (The cache and range locals computed before the enqueue are
dead code and have no effect.) -/
def asyncReadRegisters (s : QueueState) (address count : Nat) :
    Nat × QueueState :=
  enqueueRead s address count readPriority

/-- Translation of the enqueue performed by
`IsyGltModbusMixin.async_write_registers`: a write at elevated priority,
whose completion future the facade awaits before its post-write
bookkeeping runs. -/
def asyncWriteEnqueue (s : QueueState) (address : Nat) (values : List Nat) :
    Nat × QueueState :=
  enqueueWrite s address values writePriority

/-- One full worker iteration from an idle worker: dequeue the minimal
command and resolve it from a transport outcome. -/
def workerRound (s : QueueState) (out : TransportOutcome) : QueueState :=
  step (step s .startExec) (.finishExec out)

/-- The worker loop run for `fuel` iterations, the outcome of iteration
`k` supplied by `oracle k`. -/
def runWorker (s : QueueState) (oracle : Nat → TransportOutcome) :
    Nat → QueueState
  | 0 => s
  | n + 1 => runWorker (workerRound s (oracle n)) oracle n

/-- Predicate for a done (resolved) future slot. -/
def isDone : Option FutureState → Bool
  | some (.done _) => true
  | _ => false

/-- Lifecycle position of a command, as observed on a queue state:
0 = pending, 1 = executing, 2 = resolved (its future is done). -/
def statusOf (s : QueueState) (cmd : HubCommand) : Nat :=
  if isDone (flookup cmd.future s.futures) then 2
  else if cmd ∈ s.executing then 1
  else 0

/-- Well-formedness used for the liveness argument: every queued or
executing command refers to a future present in the future table. -/
def WellFormed (s : QueueState) : Prop :=
  (∀ cmd ∈ s.queue, (flookup cmd.future s.futures).isSome = true) ∧
  (∀ cmd ∈ s.executing, (flookup cmd.future s.futures).isSome = true)

/-! Bulk-range computation from `async_setup` in `__init__.py`.  Spans are
`(start, end)` address pairs, ranges are `(start, count)` pairs.  Python
integers are modelled as `Int`. -/

/-- Branch condition of the merge loop in `async_setup`
(`s - cur_end - 1 <= GAP_THRESHOLD and (e - cur_start + 1) <= BLOCK_LIMIT`
with `GAP_THRESHOLD = 16`, `BLOCK_LIMIT = 125`). -/
def mergeCond (curStart curEnd s e : Int) : Prop :=
  s - curEnd - 1 ≤ 16 ∧ e - curStart + 1 ≤ 125

instance (curStart curEnd s e : Int) : Decidable (mergeCond curStart curEnd s e) := by
  unfold mergeCond; exact inferInstance

/-- Merge condition as the spec words it: the gap between the current
range and the next span is at most 16 registers, and the resulting merged
range -- the current range extended to cover the span -- has at most 125
registers. -/
def specMergeCond (curStart curEnd s e : Int) : Prop :=
  s - curEnd - 1 ≤ 16 ∧ max curEnd e - curStart + 1 ≤ 125

/-- Loop over the sorted spans in `async_setup` accumulating
`(cur_start, cur_end)`, emitting `(start, count)` ranges. -/
def mergeLoop (curStart curEnd : Int) : List (Int × Int) → List (Int × Int)
  | [] => [(curStart, curEnd - curStart + 1)]
  | (s, e) :: rest =>
    if mergeCond curStart curEnd s e then
      mergeLoop curStart (max curEnd e) rest
    else
      (curStart, curEnd - curStart + 1) :: mergeLoop s e rest

/-- The `ranges` list computed in `async_setup` from the sorted spans
(empty when there are no spans). -/
def computeRanges : List (Int × Int) → List (Int × Int)
  | [] => []
  | (s, e) :: rest => mergeLoop s e rest

/-- The `valid_ranges` filter in `async_setup`: only ranges of at most
`BLOCK_LIMIT = 125` registers enter the bulk-range table. -/
def validRanges (spans : List (Int × Int)) : List (Int × Int) :=
  (computeRanges spans).filter (fun r => decide (r.2 ≤ 125))

/-! Delayed "registers updated" broadcast from `async_write_registers` and
its consumers in `light.py`, `switch.py`, `sensor.py`, `binary_sensor.py`. -/

/-- Signal name passed to `async_dispatcher_send` by the `call_later`
callback scheduled at the end of `async_write_registers`. -/
def regUpdatedSignal : String := "isyglt_reg_updated"

/-- One `hass.loop.call_later(delay, cb)` registration: a one-shot
callback after `delay` seconds; here the callback is a dispatcher send of
a signal. -/
structure ScheduledCall where
  delay : ℚ
  signal : String
deriving DecidableEq, Repr

/-- Calls scheduled by the tail of `async_write_registers` once the write
future has resolved successfully, for a facade on hub `hubName` with the
configured poll interval: a single one-shot dispatcher send after
`PROP_DELAY = poll_int + poll_int`.  The hub name does not enter the
scheduled call. -/
def writeScheduledCalls (hubName : String) (pollInterval : ℚ) :
    List ScheduledCall :=
  [{ delay := pollInterval + pollInterval, signal := regUpdatedSignal }]

/-- Signal each platform entity subscribes to via
`async_dispatcher_connect` (light.py lines 92-93 and the analogous lines
of switch.py, sensor.py, binary_sensor.py), for an entity on hub
`hubName`: the constant `"isyglt_reg_updated"`, independent of the hub. -/
def entitySubscribedSignal (hubName : String) : String :=
  regUpdatedSignal

/-- Whether an entity on hub `deviceHub` receives the delayed broadcast of
a write performed on hub `writeHub`: the dispatcher delivers a send to
every subscriber of the sent signal name. -/
def notificationReaches (writeHub deviceHub : String) : Bool :=
  (writeScheduledCalls writeHub 1).any
    (fun c => c.signal == entitySubscribedSignal deviceHub)

instance : Inhabited HubCommand :=
  ⟨{ priority := 0, counter := 0, op := .read, address := 0, length := 0,
     values := none, future := 0 }⟩

/-- The executed order of a pending list: repeatedly pop a minimal
command, with fuel bounded by the list length. -/
def drainAux : Nat → List HubCommand → List HubCommand
  | 0, _ => []
  | n + 1, q =>
    match popMin q with
    | none => []
    | some (c, rest) => c :: drainAux n rest

/-- The order in which the worker executes the currently pending commands
if no further command is enqueued. -/
def drain (q : List HubCommand) : List HubCommand :=
  drainAux q.length q

/-- The command created by a dedup-miss call to enqueue_read. -/
def newReadCmd (s : QueueState) (a n : Nat) (p : Int) : HubCommand :=
  { priority := p, counter := s.counter + 1, op := .read, address := a,
    length := n, values := none, future := s.nextFut }

/-- The two structural invariants of a bus queue: dict semantics of the
dedup map (no duplicate keys) and a single worker slot. -/
def Inv (s : QueueState) : Prop :=
  (s.pendingReads.map Prod.fst).Nodup ∧ s.executing.length ≤ 1

/-- Device types recognized by the span computation of async_setup, with
the register count each contributes (`reg_cnt`); `other` stands for any
type hitting none of the branches (count stays 1). -/
inductive DeviceType where
  | rgbLight
  | whiteLight
  | dimmer
  | motionSensor
  | buttonGrid
  | ioModule
  | other
deriving DecidableEq, Repr

/-- Register count per device type from async_setup and const.py
(LIGHT_REGISTER_COUNT_RGB = 5, _WHITE = 3, _DIMMER = 2; sensors, button
grids and IO modules use 2; default 1). -/
def regCount : DeviceType → Int
  | .rgbLight => 5
  | .whiteLight => 3
  | .dimmer => 2
  | .motionSensor => 2
  | .buttonGrid => 2
  | .ioModule => 2
  | .other => 1

/-- Span `(start, end)` contributed by one device at `addr`:
`end = start + reg_cnt - 1`. -/
def deviceSpan (t : DeviceType) (addr : Int) : Int × Int :=
  (addr, addr + regCount t - 1)

/-- Concrete queue used to instantiate C1: a routine read enqueued first,
then a write enqueued afterwards at elevated priority. -/
def c1ReadCmd : HubCommand :=
  { priority := readPriority, counter := 1, op := .read, address := 10,
    length := 1, values := none, future := 0 }

def c1WriteCmd : HubCommand :=
  { priority := writePriority, counter := 2, op := .write, address := 20,
    length := 1, values := some [5], future := 1 }

def c1Queue : List HubCommand := [c1ReadCmd, c1WriteCmd]

def c1State : QueueState :=
  { queue := c1Queue, counter := 2, pendingReads := [((10, 1), c1ReadCmd)],
    executing := [], futures := [(0, .pending), (1, .pending)], nextFut := 2 }

/-- State used to instantiate C2: no read in flight. -/
def c2State : QueueState := initState

/-- State used to instantiate C8: an identical write (same address and
values) is already pending, and a new one is allocated anyway. -/
def c8Cmd : HubCommand :=
  { priority := 0, counter := 1, op := .write, address := 20,
    length := 1, values := some [7], future := 0 }

def c8State : QueueState :=
  { queue := [c8Cmd], counter := 1, pendingReads := [], executing := [],
    futures := [(0, .pending)], nextFut := 1 }

/-- State used to instantiate C4: a write is executing while a read stays
pending. -/
def c4WriteCmd : HubCommand :=
  { priority := 0, counter := 2, op := .write, address := 20,
    length := 1, values := some [5], future := 1 }

def c4State : QueueState :=
  { queue := [c1ReadCmd], counter := 2,
    pendingReads := [((10, 1), c1ReadCmd)],
    executing := [c4WriteCmd],
    futures := [(0, .pending), (1, .pending)], nextFut := 2 }

/-- State used to instantiate C6: a write command is executing. -/
def c6State : QueueState :=
  { queue := [], counter := 1, pendingReads := [],
    executing := [c8Cmd], futures := [(0, .pending)], nextFut := 1 }

/-- State used to instantiate C10: a read command is executing. -/
def c10State : QueueState :=
  { queue := [], counter := 1, pendingReads := [((10, 1), c1ReadCmd)],
    executing := [c1ReadCmd], futures := [(0, .pending)], nextFut := 1 }

/-- Events reaching the state used to instantiate C3. -/
def c3Events : List Event := [.enqueueRead 10 1 1, .startExec]

def c3State : QueueState := run initState c3Events

theorem keyLe_refl (a : HubCommand) : keyLe a a := by
  unfold keyLe; omega

theorem keyLe_trans {a b c : HubCommand} (h1 : keyLe a b) (h2 : keyLe b c) :
    keyLe a c := by
  unfold keyLe at *; omega

theorem keyLe_total (a b : HubCommand) : keyLe a b ∨ keyLe b a := by
  unfold keyLe; omega

theorem cmdLt_irrefl (a : HubCommand) : ¬ cmdLt a a := by
  unfold cmdLt; omega

theorem cmdLt_asymm {a b : HubCommand} (h : cmdLt a b) : ¬ cmdLt b a := by
  unfold cmdLt at *; omega

theorem keyLe_ne_cmdLt {a b : HubCommand} (h1 : keyLe a b)
    (h2 : a.counter ≠ b.counter) : cmdLt a b := by
  unfold keyLe at h1; unfold cmdLt; omega

theorem popMin_eq_none {q : List HubCommand} (h : popMin q = none) :
    q = [] := by
  cases q with
  | nil => rfl
  | cons c cs =>
    unfold popMin at h
    rcases hcs : popMin cs with _ | p
    · rw [hcs] at h; cases h
    · rw [hcs] at h
      rcases p with ⟨m, rest⟩
      by_cases hle : keyLe c m <;> simp [hle] at h

theorem popMin_perm {q : List HubCommand} {c : HubCommand}
    {rest : List HubCommand} (h : popMin q = some (c, rest)) :
    q.Perm (c :: rest) := by
  induction q generalizing c rest with
  | nil => cases h
  | cons x xs ih =>
    unfold popMin at h
    rcases hcs : popMin xs with _ | p
    · rw [hcs] at h
      have hx : xs = [] := popMin_eq_none hcs
      subst hx
      cases h
      exact List.Perm.refl _
    · rw [hcs] at h
      rcases p with ⟨m, mrest⟩
      by_cases hle : keyLe x m
      · simp only [hle, if_true] at h
        cases h
        exact List.Perm.refl _
      · simp only [hle, if_false] at h
        cases h
        have hperm : xs.Perm (c :: mrest) := ih hcs
        exact (hperm.cons x).trans (List.Perm.swap c x mrest)

theorem popMin_length {q : List HubCommand} {c : HubCommand}
    {rest : List HubCommand} (h : popMin q = some (c, rest)) :
    q.length = rest.length + 1 := by
  have := (popMin_perm h).length_eq
  simpa using this

theorem popMin_mem {q : List HubCommand} {c : HubCommand}
    {rest : List HubCommand} (h : popMin q = some (c, rest)) : c ∈ q :=
  (popMin_perm h).symm.subset (List.mem_cons_self c rest)

theorem popMin_rest_subset {q : List HubCommand} {c : HubCommand}
    {rest : List HubCommand} (h : popMin q = some (c, rest)) {x : HubCommand}
    (hx : x ∈ rest) : x ∈ q :=
  (popMin_perm h).symm.subset (List.mem_cons_of_mem c hx)

theorem popMin_le {q : List HubCommand} {c : HubCommand}
    {rest : List HubCommand} (h : popMin q = some (c, rest)) :
    ∀ x ∈ q, keyLe c x := by
  induction q generalizing c rest with
  | nil => cases h
  | cons y ys ih =>
    unfold popMin at h
    rcases hcs : popMin ys with _ | p
    · rw [hcs] at h
      have hy : ys = [] := popMin_eq_none hcs
      cases h
      subst hy
      intro x hx
      rcases List.mem_singleton.mp hx with rfl
      exact keyLe_refl _
    · rw [hcs] at h
      rcases p with ⟨m, mrest⟩
      by_cases hle : keyLe y m
      · simp only [hle, if_true] at h
        cases h
        intro x hx
        rcases List.mem_cons.mp hx with rfl | hx2
        · exact keyLe_refl _
        · exact keyLe_trans hle (ih hcs x hx2)
      · simp only [hle, if_false] at h
        cases h
        have hmy : keyLe c y := (keyLe_total y c).resolve_left hle
        intro x hx
        rcases List.mem_cons.mp hx with rfl | hx2
        · exact hmy
        · exact ih hcs x hx2

theorem drainAux_subset {n : Nat} {q : List HubCommand} {x : HubCommand}
    (hx : x ∈ drainAux n q) : x ∈ q := by
  induction n generalizing q with
  | zero => cases hx
  | succ n ih =>
    unfold drainAux at hx
    rcases hq : popMin q with _ | p
    · rw [hq] at hx; cases hx
    · rw [hq] at hx
      rcases p with ⟨c, rest⟩
      rcases List.mem_cons.mp hx with rfl | hx2
      · exact popMin_mem hq
      · exact popMin_rest_subset hq (ih hx2)

theorem drainAux_perm {n : Nat} {q : List HubCommand} (hn : q.length ≤ n) :
    (drainAux n q).Perm q := by
  induction n generalizing q with
  | zero =>
    have : q = [] := List.eq_nil_of_length_eq_zero (Nat.le_zero.mp hn)
    subst this
    exact List.Perm.refl _
  | succ n ih =>
    unfold drainAux
    rcases hq : popMin q with _ | p
    · have : q = [] := popMin_eq_none hq
      subst this
      exact List.Perm.refl _
    · rcases p with ⟨c, rest⟩
      have hlen : q.length = rest.length + 1 := popMin_length hq
      have hrest : rest.length ≤ n := by omega
      exact ((ih hrest).cons c).trans (popMin_perm hq).symm

theorem drain_perm (q : List HubCommand) : (drain q).Perm q :=
  drainAux_perm (Nat.le_refl _)

theorem drainAux_sorted (n : Nat) (q : List HubCommand) :
    (drainAux n q).Pairwise keyLe := by
  induction n generalizing q with
  | zero => exact List.Pairwise.nil
  | succ n ih =>
    unfold drainAux
    rcases hq : popMin q with _ | p
    · exact List.Pairwise.nil
    · rcases p with ⟨c, rest⟩
      refine List.Pairwise.cons ?_ (ih rest)
      intro x hx
      exact popMin_le hq x (popMin_rest_subset hq (drainAux_subset hx))

theorem drain_sorted_cmdLt {q : List HubCommand}
    (hctr : q.Pairwise fun a b => a.counter ≠ b.counter) :
    (drain q).Pairwise cmdLt := by
  have hsymm : Symmetric fun a b : HubCommand => a.counter ≠ b.counter :=
    fun _ _ h => Ne.symm h
  have hctr2 : (drain q).Pairwise fun a b => a.counter ≠ b.counter :=
    ((drain_perm q).pairwise_iff @hsymm).mpr hctr
  exact ((drainAux_sorted _ _).and hctr2).imp
    (fun h => keyLe_ne_cmdLt h.1 h.2)

/-- C1: the worker executes pending commands in the strict lexicographic
order of (priority, sequence): with pairwise-distinct sequence numbers,
command at position i of the execution order precedes the one at position
j iff it is lexicographically smaller; facade writes use priority 0 and
facade reads priority 1, so a pending write always precedes a pending
read; and a worker dequeue step takes exactly the popped minimal command,
so the execution order is the successive pops. -/
theorem C1_priority_order (q : List HubCommand)
    (hctr : q.Pairwise fun a b => a.counter ≠ b.counter)
    (i j : Nat) (hi : i < (drain q).length) (hj : j < (drain q).length)
    (w r : HubCommand) (hw : w.priority = writePriority)
    (hr : r.priority = readPriority)
    (s : QueueState) (c : HubCommand) (rest : List HubCommand)
    (hidle : s.executing = []) (hpop : popMin s.queue = some (c, rest)) :
    (i < j ↔ cmdLt ((drain q).getD i default) ((drain q).getD j default)) ∧
    cmdLt w r ∧
    (step s .startExec).executing = [c] ∧
    (step s .startExec).queue = rest ∧
    drain s.queue = c :: drain rest := by
  have hpair := drain_sorted_cmdLt hctr
  have hget := List.pairwise_iff_get.mp hpair
  have hgetD_i : (drain q).getD i default = (drain q).get ⟨i, hi⟩ := by
    simp [List.getD_eq_getElem?_getD, List.getElem?_eq_getElem hi]
  have hgetD_j : (drain q).getD j default = (drain q).get ⟨j, hj⟩ := by
    simp [List.getD_eq_getElem?_getD, List.getElem?_eq_getElem hj]
  refine ⟨?_, ?_, ?_, ?_, ?_⟩
  · rw [hgetD_i, hgetD_j]
    constructor
    · intro hij
      exact hget ⟨i, hi⟩ ⟨j, hj⟩ hij
    · intro hlt
      rcases Nat.lt_trichotomy i j with h | h | h
      · exact h
      · exfalso
        have : (⟨i, hi⟩ : Fin (drain q).length) = ⟨j, hj⟩ := Fin.ext h
        rw [this] at hlt
        exact cmdLt_irrefl _ hlt
      · exfalso
        exact cmdLt_asymm (hget ⟨j, hj⟩ ⟨i, hi⟩ h) hlt
  · unfold cmdLt
    rw [hw, hr]
    unfold writePriority readPriority
    omega
  · simp [step, hidle, hpop]
  · simp [step, hidle, hpop]
  · unfold drain
    rw [popMin_length hpop]
    simp only [drainAux, hpop]

theorem C1_priority_order_witness :
    ((0 : Nat) < 1 ↔
      cmdLt ((drain c1Queue).getD 0 default) ((drain c1Queue).getD 1 default)) ∧
    cmdLt c1WriteCmd c1ReadCmd ∧
    (step c1State .startExec).executing = [c1WriteCmd] ∧
    (step c1State .startExec).queue = [c1ReadCmd] ∧
    drain c1State.queue = c1WriteCmd :: drain [c1ReadCmd] :=
  C1_priority_order c1Queue (by decide) 0 1 (by decide) (by decide)
    c1WriteCmd c1ReadCmd rfl rfl c1State c1WriteCmd [c1ReadCmd] rfl (by decide)

theorem flookup_append_left {l l2 : List (Nat × FutureState)} {fid : Nat}
    {st : FutureState} (h : flookup fid l = some st) :
    flookup fid (l ++ l2) = some st := by
  induction l with
  | nil => cases h
  | cons q rest ih =>
    rcases q with ⟨k, v⟩
    simp only [flookup, List.cons_append] at h ⊢
    by_cases hk : k = fid
    · simpa [hk] using h
    · rw [if_neg hk] at h ⊢
      exact ih h

theorem flookup_append_self {l : List (Nat × FutureState)} {fid : Nat}
    {st : FutureState} (h : flookup fid l = none) :
    flookup fid (l ++ [(fid, st)]) = some st := by
  induction l with
  | nil => simp [flookup]
  | cons q rest ih =>
    rcases q with ⟨k, v⟩
    simp only [flookup, List.cons_append] at h ⊢
    by_cases hk : k = fid
    · rw [if_pos hk] at h; cases h
    · rw [if_neg hk] at h ⊢
      exact ih h

theorem enqueueRead_hit (s : QueueState) (a n : Nat) (p : Int)
    (cmd : HubCommand) (h : rlookup (a, n) s.pendingReads = some cmd) :
    enqueueRead s a n p = (cmd.future, s) := by
  unfold enqueueRead; rw [h]

theorem enqueueRead_miss (s : QueueState) (a n : Nat) (p : Int)
    (h : rlookup (a, n) s.pendingReads = none) :
    enqueueRead s a n p = (s.nextFut,
      { s with
        counter := s.counter + 1
        nextFut := s.nextFut + 1
        futures := s.futures ++ [(s.nextFut, FutureState.pending)]
        pendingReads := ((a, n), newReadCmd s a n p) :: s.pendingReads
        queue := s.queue ++ [newReadCmd s a n p] }) := by
  unfold enqueueRead newReadCmd; rw [h]

/-- C2: a call to enqueue_read while a read for exactly the same
(address, length) is in the dedup map returns that command's future and
changes nothing; consequently a second identical enqueue after a first
one (started from a state with no such in-flight read) returns the first
call's future and leaves the first call's state untouched, and the queue
holds exactly one more matching read command than before -- so draining
it issues exactly one more matching transport invocation, whose single
future every attached caller awaits. -/
theorem C2_read_dedup (s : QueueState) (a n : Nat) (p p' : Int) :
    (∀ cmd, rlookup (a, n) s.pendingReads = some cmd →
      enqueueRead s a n p = (cmd.future, s)) ∧
    (rlookup (a, n) s.pendingReads = none →
      (enqueueRead (enqueueRead s a n p).2 a n p').1
        = (enqueueRead s a n p).1 ∧
      (enqueueRead (enqueueRead s a n p).2 a n p').2
        = (enqueueRead s a n p).2 ∧
      ((enqueueRead s a n p).2.queue.countP fun c =>
          decide (c.op = .read ∧ c.address = a ∧ c.length = n))
        = (s.queue.countP fun c =>
            decide (c.op = .read ∧ c.address = a ∧ c.length = n)) + 1 ∧
      ((drain (enqueueRead s a n p).2.queue).countP fun c =>
          decide (c.op = .read ∧ c.address = a ∧ c.length = n))
        = (s.queue.countP fun c =>
            decide (c.op = .read ∧ c.address = a ∧ c.length = n)) + 1) := by
  constructor
  · intro cmd hin
    exact enqueueRead_hit s a n p cmd hin
  · intro hnone
    have hmiss := enqueueRead_miss s a n p hnone
    have hlook2 : rlookup (a, n) (enqueueRead s a n p).2.pendingReads
        = some (newReadCmd s a n p) := by
      rw [hmiss]
      simp [rlookup]
    have hhit := enqueueRead_hit (enqueueRead s a n p).2 a n p'
      (newReadCmd s a n p) hlook2
    have hfut : (newReadCmd s a n p).future = (enqueueRead s a n p).1 := by
      rw [hmiss]
      rfl
    have hq : (enqueueRead s a n p).2.queue
        = s.queue ++ [newReadCmd s a n p] := by
      rw [hmiss]
    have hcount : ((enqueueRead s a n p).2.queue.countP fun c =>
        decide (c.op = .read ∧ c.address = a ∧ c.length = n))
        = (s.queue.countP fun c =>
            decide (c.op = .read ∧ c.address = a ∧ c.length = n)) + 1 := by
      rw [hq, List.countP_append]
      simp [List.countP_cons, newReadCmd]
    refine ⟨?_, ?_, hcount, ?_⟩
    · rw [hhit, ← hfut]
    · rw [hhit]
    · rw [((drain_perm _).countP_eq _), hcount]

theorem C2_read_dedup_witness :
    (enqueueRead (enqueueRead c2State 100 4 1).2 100 4 1).1
      = (enqueueRead c2State 100 4 1).1 :=
  ((C2_read_dedup c2State 100 4 1 1).2 (by decide)).1

/-- C8: enqueue_write always allocates a fresh command carrying the next
sequence number and a fresh future, appends it to the pending queue, and
neither reads nor writes the dedup map: its result on a state with any
other dedup map differs from the original only by that map. -/
theorem C8_write_no_dedup (s : QueueState) (a : Nat) (vs : List Nat) (p : Int)
    (pr' : List ((Nat × Nat) × HubCommand))
    (hfresh : flookup s.nextFut s.futures = none)
    (hctr : ∀ c ∈ s.queue, c.counter ≤ s.counter) :
    (enqueueWrite s a vs p).1 = s.nextFut ∧
    (enqueueWrite s a vs p).2.counter = s.counter + 1 ∧
    (enqueueWrite s a vs p).2.queue = s.queue ++
      [{ priority := p, counter := s.counter + 1, op := .write, address := a,
         length := vs.length, values := some vs, future := s.nextFut }] ∧
    (∀ c ∈ s.queue, c.counter ≠ s.counter + 1) ∧
    (enqueueWrite s a vs p).2.pendingReads = s.pendingReads ∧
    flookup s.nextFut (enqueueWrite s a vs p).2.futures = some .pending ∧
    (enqueueWrite { s with pendingReads := pr' } a vs p).1
      = (enqueueWrite s a vs p).1 ∧
    (enqueueWrite { s with pendingReads := pr' } a vs p).2
      = { (enqueueWrite s a vs p).2 with pendingReads := pr' } := by
  refine ⟨rfl, rfl, rfl, ?_, rfl, ?_, rfl, rfl⟩
  · intro c hc
    have := hctr c hc
    omega
  · exact flookup_append_self hfresh

theorem C8_write_no_dedup_witness :
    (enqueueWrite c8State 20 [7] 0).1 = c8State.nextFut ∧
    (enqueueWrite c8State 20 [7] 0).2.counter = c8State.counter + 1 :=
  ⟨(C8_write_no_dedup c8State 20 [7] 0 [] (by decide) (by decide)).1,
   (C8_write_no_dedup c8State 20 [7] 0 [] (by decide) (by decide)).2.1⟩

theorem resolveFuture_cons (k : Nat) (st : FutureState)
    (rest : List (Nat × FutureState)) (fid : Nat) (v : Except Nat CmdResult) :
    resolveFuture ((k, st) :: rest) fid v =
      (if k = fid then (k, bump v st) else (k, st)) :: resolveFuture rest fid v :=
  rfl

theorem flookup_resolve_ne {futs : List (Nat × FutureState)} {fid fid' : Nat}
    {v : Except Nat CmdResult} (h : fid' ≠ fid) :
    flookup fid' (resolveFuture futs fid v) = flookup fid' futs := by
  induction futs with
  | nil => rfl
  | cons q rest ih =>
    rcases q with ⟨k, st⟩
    rw [resolveFuture_cons]
    by_cases hk : k = fid
    · rw [if_pos hk]
      have hkf : ¬ (k = fid') := fun hh => h (hh ▸ hk)
      simp only [flookup]
      rw [if_neg hkf, if_neg hkf]
      exact ih
    · rw [if_neg hk]
      simp only [flookup]
      by_cases hk2 : k = fid'
      · rw [if_pos hk2, if_pos hk2]
      · rw [if_neg hk2, if_neg hk2]
        exact ih

theorem flookup_resolve_pending {futs : List (Nat × FutureState)} {fid : Nat}
    {v : Except Nat CmdResult} (h : flookup fid futs = some .pending) :
    flookup fid (resolveFuture futs fid v) = some (.done v) := by
  induction futs with
  | nil => cases h
  | cons q rest ih =>
    rcases q with ⟨k, st⟩
    simp only [flookup] at h
    rw [resolveFuture_cons]
    by_cases hk : k = fid
    · rw [if_pos hk] at h
      have hst : st = .pending := by
        cases Option.some.inj h
        rfl
      subst hst
      rw [if_pos hk]
      simp only [flookup, bump]
      rw [if_pos hk]
    · rw [if_neg hk] at h
      rw [if_neg hk]
      simp only [flookup]
      rw [if_neg hk]
      exact ih h

theorem flookup_resolve_done {futs : List (Nat × FutureState)}
    {fid fid' : Nat} {v w : Except Nat CmdResult}
    (h : flookup fid' futs = some (.done w)) :
    flookup fid' (resolveFuture futs fid v) = some (.done w) := by
  induction futs with
  | nil => cases h
  | cons q rest ih =>
    rcases q with ⟨k, st⟩
    simp only [flookup] at h
    rw [resolveFuture_cons]
    by_cases hk : k = fid'
    · rw [if_pos hk] at h
      have hst : st = .done w := by
        cases Option.some.inj h
        rfl
      subst hst
      by_cases hk2 : k = fid
      · rw [if_pos hk2]
        simp only [flookup, bump]
        rw [if_pos hk]
      · rw [if_neg hk2]
        simp only [flookup]
        rw [if_pos hk]
    · rw [if_neg hk] at h
      by_cases hk2 : k = fid
      · rw [if_pos hk2]
        simp only [flookup]
        rw [if_neg hk]
        exact ih h
      · rw [if_neg hk2]
        simp only [flookup]
        rw [if_neg hk]
        exact ih h

theorem flookup_resolve_isSome {futs : List (Nat × FutureState)}
    {fid fid' : Nat} {v : Except Nat CmdResult} {st : FutureState}
    (h : flookup fid' futs = some st) :
    ∃ st2, flookup fid' (resolveFuture futs fid v) = some st2 := by
  by_cases hk : fid' = fid
  · subst hk
    cases st with
    | pending => exact ⟨_, flookup_resolve_pending h⟩
    | done w => exact ⟨_, flookup_resolve_done h⟩
  · exact ⟨st, (flookup_resolve_ne hk).trans h⟩

theorem flookup_resolve_resolved {futs : List (Nat × FutureState)}
    {fid : Nat} {v : Except Nat CmdResult} {st : FutureState}
    (h : flookup fid futs = some st) :
    ∃ w, flookup fid (resolveFuture futs fid v) = some (.done w) := by
  cases st with
  | pending => exact ⟨v, flookup_resolve_pending h⟩
  | done w => exact ⟨w, flookup_resolve_done h⟩

theorem workerResult_exn (o : Op) (e : Nat) :
    workerResult o (.exn e) = .error e := by
  cases o <;> rfl

theorem finishExec_state (s : QueueState) (cmd : HubCommand)
    (rest : List HubCommand) (out : TransportOutcome)
    (hex : s.executing = cmd :: rest) :
    step s (.finishExec out) =
      { s with
        futures := resolveFuture s.futures cmd.future (workerResult cmd.op out)
        pendingReads :=
          if cmd.op = .read then
            s.pendingReads.filter
              (fun p => decide (p.1 ≠ (cmd.address, cmd.length)))
          else s.pendingReads
        executing := [] } := by
  simp [step, hex]

theorem startExec_state (s : QueueState) (c : HubCommand)
    (rest : List HubCommand) (hidle : s.executing = [])
    (hpop : popMin s.queue = some (c, rest)) :
    step s .startExec = { s with queue := rest, executing := [c] } := by
  simp [step, hidle, hpop]

/-- C4: when the transport raises for the executing command, the worker
delivers the exception to that command's future (hence to every waiter
attached to it), leaves every pending command and every other future
untouched, returns to idle, and its next dequeue step picks up the next
pending command normally. -/
theorem C4_failure_isolation (s : QueueState) (cmd : HubCommand)
    (rest : List HubCommand) (e : Nat)
    (hex : s.executing = cmd :: rest)
    (hp : flookup cmd.future s.futures = some .pending) :
    flookup cmd.future (step s (.finishExec (.exn e))).futures
      = some (.done (.error e)) ∧
    (step s (.finishExec (.exn e))).queue = s.queue ∧
    (∀ fid, fid ≠ cmd.future →
      flookup fid (step s (.finishExec (.exn e))).futures
        = flookup fid s.futures) ∧
    (step s (.finishExec (.exn e))).executing = [] ∧
    (∀ c2 r2, popMin s.queue = some (c2, r2) →
      (step (step s (.finishExec (.exn e))) .startExec).executing = [c2] ∧
      (step (step s (.finishExec (.exn e))) .startExec).queue = r2) := by
  have hst := finishExec_state s cmd rest (.exn e) hex
  refine ⟨?_, ?_, ?_, ?_, ?_⟩
  · rw [hst]
    simp only [workerResult_exn]
    exact flookup_resolve_pending hp
  · rw [hst]
  · intro fid hfid
    rw [hst]
    exact flookup_resolve_ne hfid
  · rw [hst]
  · intro c2 r2 hpop
    have hq : (step s (.finishExec (.exn e))).queue = s.queue := by rw [hst]
    have hidle2 : (step s (.finishExec (.exn e))).executing = [] := by rw [hst]
    have hpop2 : popMin (step s (.finishExec (.exn e))).queue
        = some (c2, r2) := by rw [hq]; exact hpop
    rw [startExec_state _ c2 r2 hidle2 hpop2]
    exact ⟨rfl, rfl⟩

theorem C4_failure_isolation_witness :
    flookup 1 (step c4State (.finishExec (.exn 7))).futures
      = some (.done (.error 7)) ∧
    (step c4State (.finishExec (.exn 7))).queue = c4State.queue :=
  ⟨(C4_failure_isolation c4State c4WriteCmd [] 7 rfl rfl).1,
   (C4_failure_isolation c4State c4WriteCmd [] 7 rfl rfl).2.1⟩

/-- C6 counterexample: a transport write failure that is reported by
returning no result object -- the outcome the read path itself treats as
the failure indication, mapping it to None -- is swallowed on the write
path: _direct_write discards the result of the transport call, so the
worker resolves the write future with success (the value True) at that
very outcome, and the caller awaiting the handle is told the write
succeeded.  Concretely, finishing the executing write of c6State with the
no-result outcome resolves its future with success. -/
theorem C6_swallowed_write_failure :
    flookup 0 (step c6State (.finishExec .pbNone)).futures
      = some (.done (.ok .writeOk)) ∧
    directRead .pbNone = .ok none := by
  constructor
  · decide
  · rfl

/-- C6 (amended): the future awaited by the facade's write path resolves
with a failure if and only if the transport write call raised an
exception, and resolves with success (the value True) for every
non-raising outcome -- including the no-result outcome by which the
transport reports failure without raising, which is therefore not
surfaced to the caller; the facade's enqueue appends the write command
whose future is the returned handle. -/
theorem C6_write_failure (s : QueueState) (cmd : HubCommand)
    (rest : List HubCommand) (out : TransportOutcome)
    (st2 : QueueState) (a : Nat) (vs : List Nat)
    (hex : s.executing = cmd :: rest) (hop : cmd.op = .write)
    (hp : flookup cmd.future s.futures = some .pending) :
    (∀ e, flookup cmd.future (step s (.finishExec out)).futures
        = some (.done (.error e)) ↔ out = .exn e) ∧
    ((∀ e, out ≠ .exn e) →
      flookup cmd.future (step s (.finishExec out)).futures
        = some (.done (.ok .writeOk))) ∧
    (asyncWriteEnqueue st2 a vs).2.queue = st2.queue ++
      [{ priority := writePriority, counter := st2.counter + 1, op := .write,
         address := a, length := vs.length, values := some vs,
         future := (asyncWriteEnqueue st2 a vs).1 }] := by
  have hst := finishExec_state s cmd rest out hex
  have hres : flookup cmd.future (step s (.finishExec out)).futures
      = some (.done (workerResult cmd.op out)) := by
    rw [hst]
    exact flookup_resolve_pending hp
  refine ⟨?_, ?_, rfl⟩
  · intro e
    rw [hres, hop]
    cases out with
    | exn e2 => simp [workerResult, directWrite]
    | pbNone => simp [workerResult, directWrite]
    | pbNoRegisters => simp [workerResult, directWrite]
    | pbRegs rs => simp [workerResult, directWrite]
  · intro hne
    rw [hres, hop]
    cases out with
    | exn e2 => exact absurd rfl (hne e2)
    | pbNone => rfl
    | pbNoRegisters => rfl
    | pbRegs rs => rfl

theorem C6_write_failure_witness :
    flookup 0 (step c6State (.finishExec (.exn 3))).futures
      = some (.done (.error 3)) ↔ TransportOutcome.exn 3 = .exn 3 :=
  (C6_write_failure c6State c8Cmd [] (.exn 3) initState 20 [7]
    rfl rfl rfl).1 3

/-- C10: a transport read that completes without a result object, or with
a result lacking register words, makes _direct_read return None; the
worker then resolves the read command's future with the value None as a
successful result (not an exception), which is what every waiter of the
deduplicated future -- and thus every caller of async_read_registers,
which returns the awaited future value -- observes; the facade read is
exactly an enqueue_read at routine priority. -/
theorem C10_read_none (s : QueueState) (cmd : HubCommand)
    (rest : List HubCommand) (out : TransportOutcome)
    (hex : s.executing = cmd :: rest) (hop : cmd.op = .read)
    (hp : flookup cmd.future s.futures = some .pending)
    (hout : out = .pbNone ∨ out = .pbNoRegisters) :
    directRead out = .ok none ∧
    flookup cmd.future (step s (.finishExec out)).futures
      = some (.done (.ok (.readResult none))) ∧
    (∀ st a n, asyncReadRegisters st a n = enqueueRead st a n readPriority) := by
  have hdr : directRead out = .ok none := by
    rcases hout with rfl | rfl <;> rfl
  have hst := finishExec_state s cmd rest out hex
  refine ⟨hdr, ?_, fun _ _ _ => rfl⟩
  have hwr : workerResult cmd.op out = .ok (.readResult none) := by
    rw [hop]
    unfold workerResult
    rw [hdr]
  rw [hst, hwr]
  exact flookup_resolve_pending hp

theorem C10_read_none_witness :
    flookup 0 (step c10State (.finishExec .pbNone)).futures
      = some (.done (.ok (.readResult none))) :=
  (C10_read_none c10State c1ReadCmd [] .pbNone rfl rfl rfl
    (Or.inl rfl)).2.1

theorem rlookup_none_not_mem {l : List ((Nat × Nat) × HubCommand)}
    {k : Nat × Nat} (h : rlookup k l = none) : k ∉ l.map Prod.fst := by
  induction l with
  | nil => simp
  | cons q rest ih =>
    rcases q with ⟨k2, v⟩
    simp only [rlookup] at h
    by_cases hk : k2 = k
    · rw [if_pos hk] at h; cases h
    · rw [if_neg hk] at h
      simp only [List.map_cons, List.mem_cons]
      rintro (rfl | hmem)
      · exact hk rfl
      · exact ih h hmem

theorem inv_init : Inv initState :=
  ⟨List.nodup_nil, Nat.zero_le 1⟩

theorem inv_step {s : QueueState} (e : Event) (h : Inv s) : Inv (step s e) := by
  rcases h with ⟨hnd, hexec⟩
  cases e with
  | enqueueRead a n p =>
    rcases hl : rlookup (a, n) s.pendingReads with _ | cmd
    · have hmiss := enqueueRead_miss s a n p hl
      show Inv (enqueueRead s a n p).2
      rw [hmiss]
      refine ⟨?_, hexec⟩
      simp only [List.map_cons]
      exact List.nodup_cons.mpr ⟨rlookup_none_not_mem hl, hnd⟩
    · have hhit := enqueueRead_hit s a n p cmd hl
      show Inv (enqueueRead s a n p).2
      rw [hhit]
      exact ⟨hnd, hexec⟩
  | enqueueWrite a vs p => exact ⟨hnd, hexec⟩
  | startExec =>
    cases hx : s.executing with
    | nil =>
      rcases hpop : popMin s.queue with _ | p2
      · have : step s .startExec = s := by simp [step, hx, hpop]
        rw [this]; exact ⟨hnd, hexec⟩
      · rcases p2 with ⟨c, rest⟩
        rw [startExec_state s c rest hx hpop]
        exact ⟨hnd, Nat.le_refl 1⟩
    | cons cmd tail =>
      have : step s .startExec = s := by simp [step, hx]
      rw [this]; exact ⟨hnd, hexec⟩
  | finishExec out =>
    cases hx : s.executing with
    | nil =>
      have : step s (.finishExec out) = s := by simp [step, hx]
      rw [this]; exact ⟨hnd, hexec⟩
    | cons cmd tail =>
      rw [finishExec_state s cmd tail out hx]
      refine ⟨?_, by simp⟩
      by_cases hop : cmd.op = .read
      · rw [if_pos hop]
        exact hnd.sublist ((List.filter_sublist _).map _)
      · rw [if_neg hop]
        exact hnd

theorem run_inv (evs : List Event) (s : QueueState) (h : Inv s) :
    Inv (run s evs) := by
  induction evs generalizing s with
  | nil => exact h
  | cons e rest ih => exact ih (step s e) (inv_step e h)

theorem reachable_inv {s : QueueState} (h : Reachable s) : Inv s := by
  rcases h with ⟨evs, hrun⟩
  rw [← hrun]
  exact run_inv evs initState inv_init

/-- C3: in every reachable state the dedup map has at most one entry per
(address, length) key and at most one command occupies the worker slot;
finishing an executing read removes exactly its key from the dedup map
while resolving its future, for every transport outcome (success and
failure alike); and no other step removes dedup entries: dequeuing leaves
the map unchanged, enqueuing a read preserves every existing entry, and
enqueuing a write never touches the map. -/
theorem C3_dedup_invariants (s : QueueState) (hs : Reachable s)
    (cmd : HubCommand) (rest : List HubCommand) (out : TransportOutcome)
    (hex : s.executing = cmd :: rest) (hop : cmd.op = .read) :
    (s.pendingReads.map Prod.fst).Nodup ∧
    s.executing.length ≤ 1 ∧
    (step s (.finishExec out)).pendingReads
      = s.pendingReads.filter
          (fun p => decide (p.1 ≠ (cmd.address, cmd.length))) ∧
    (flookup cmd.future s.futures = some .pending →
      flookup cmd.future (step s (.finishExec out)).futures
        = some (.done (workerResult .read out))) ∧
    (step s .startExec).pendingReads = s.pendingReads ∧
    (∀ a n p k c2, rlookup k s.pendingReads = some c2 →
      rlookup k (step s (.enqueueRead a n p)).pendingReads = some c2) ∧
    (∀ a vs p, (step s (.enqueueWrite a vs p)).pendingReads
      = s.pendingReads) := by
  have hinv := reachable_inv hs
  have hst := finishExec_state s cmd rest out hex
  refine ⟨hinv.1, hinv.2, ?_, ?_, ?_, ?_, fun a vs p => rfl⟩
  · rw [hst]
    simp [hop]
  · intro hp
    rw [hst]
    simp only [hop]
    exact flookup_resolve_pending hp
  · simp [step, hex]
  · intro a n p k c2 hk
    rcases hl : rlookup (a, n) s.pendingReads with _ | c3
    · have hmiss := enqueueRead_miss s a n p hl
      show rlookup k (enqueueRead s a n p).2.pendingReads = some c2
      rw [hmiss]
      have hkne : ¬ ((a, n) = k) := by
        rintro rfl
        rw [hl] at hk
        cases hk
      simp only [rlookup]
      rw [if_neg hkne]
      exact hk
    · have hhit := enqueueRead_hit s a n p c3 hl
      show rlookup k (enqueueRead s a n p).2.pendingReads = some c2
      rw [hhit]
      exact hk

theorem C3_dedup_invariants_witness :
    (step c3State (.finishExec (.exn 5))).pendingReads
      = c3State.pendingReads.filter
          (fun p => decide (p.1 ≠ (c1ReadCmd.address, c1ReadCmd.length))) :=
  (C3_dedup_invariants c3State ⟨c3Events, rfl⟩ c1ReadCmd [] (.exn 5)
    (by decide) rfl).2.2.1

theorem isDone_iff {o : Option FutureState} :
    isDone o = true ↔ ∃ v, o = some (.done v) := by
  cases o with
  | none => simp [isDone]
  | some st =>
    cases st with
    | pending => simp [isDone]
    | done v => simp [isDone]

theorem step_done_preserved (s : QueueState) (e : Event) (fid : Nat)
    (v : Except Nat CmdResult) (h : flookup fid s.futures = some (.done v)) :
    flookup fid (step s e).futures = some (.done v) := by
  cases e with
  | enqueueRead a n p =>
    show flookup fid (enqueueRead s a n p).2.futures = _
    rcases hl : rlookup (a, n) s.pendingReads with _ | cmd
    · rw [enqueueRead_miss s a n p hl]
      exact flookup_append_left h
    · rw [enqueueRead_hit s a n p cmd hl]
      exact h
  | enqueueWrite a vs p =>
    exact flookup_append_left h
  | startExec =>
    cases hx : s.executing with
    | nil =>
      rcases hpop : popMin s.queue with _ | p2
      · have heq : step s .startExec = s := by simp [step, hx, hpop]
        rw [heq]; exact h
      · rcases p2 with ⟨c, rest⟩
        rw [startExec_state s c rest hx hpop]
        exact h
    | cons cmd tail =>
      have heq : step s .startExec = s := by simp [step, hx]
      rw [heq]; exact h
  | finishExec out =>
    cases hx : s.executing with
    | nil =>
      have heq : step s (.finishExec out) = s := by simp [step, hx]
      rw [heq]; exact h
    | cons cmd tail =>
      rw [finishExec_state s cmd tail out hx]
      exact flookup_resolve_done h

theorem resolve_isSome {futs : List (Nat × FutureState)} {fid fid' : Nat}
    {v : Except Nat CmdResult}
    (h : (flookup fid' futs).isSome = true) :
    (flookup fid' (resolveFuture futs fid v)).isSome = true := by
  rcases Option.isSome_iff_exists.mp h with ⟨st, hst⟩
  rcases @flookup_resolve_isSome futs fid fid' v st hst with ⟨st2, hst2⟩
  rw [hst2]
  rfl

theorem runWorker_done_preserved (n : Nat) (s : QueueState)
    (oracle : Nat → TransportOutcome) (fid : Nat) (v : Except Nat CmdResult)
    (h : flookup fid s.futures = some (.done v)) :
    flookup fid (runWorker s oracle n).futures = some (.done v) := by
  induction n generalizing s with
  | zero => exact h
  | succ n ih =>
    show flookup fid (runWorker (workerRound s (oracle n)) oracle n).futures = _
    exact ih _ (step_done_preserved _ (.finishExec (oracle n)) fid v
      (step_done_preserved _ .startExec fid v h))

theorem workerRound_state (s : QueueState) (c : HubCommand)
    (rest : List HubCommand) (out : TransportOutcome)
    (hidle : s.executing = []) (hpop : popMin s.queue = some (c, rest)) :
    workerRound s out =
      { s with
        queue := rest
        executing := []
        futures := resolveFuture s.futures c.future (workerResult c.op out)
        pendingReads :=
          if c.op = .read then
            s.pendingReads.filter
              (fun p => decide (p.1 ≠ (c.address, c.length)))
          else s.pendingReads } := by
  unfold workerRound
  rw [startExec_state s c rest hidle hpop]
  rw [finishExec_state _ c [] out rfl]

theorem runWorker_resolves (n : Nat) (s : QueueState)
    (oracle : Nat → TransportOutcome) (cmd : HubCommand)
    (hwf : WellFormed s) (hidle : s.executing = [])
    (hlen : s.queue.length = n) (hmem : cmd ∈ s.queue) :
    isDone (flookup cmd.future (runWorker s oracle n).futures) = true := by
  induction n generalizing s with
  | zero =>
    rw [List.length_eq_zero.mp hlen] at hmem
    cases hmem
  | succ n ih =>
    rcases hpop : popMin s.queue with _ | p2
    · rw [popMin_eq_none hpop] at hlen
      cases hlen
    rcases p2 with ⟨c, rest⟩
    have hround := workerRound_state s c rest (oracle n) hidle hpop
    have hq1 : (workerRound s (oracle n)).queue = rest := by rw [hround]
    have hx1 : (workerRound s (oracle n)).executing = [] := by rw [hround]
    have hf1 : (workerRound s (oracle n)).futures
        = resolveFuture s.futures c.future (workerResult c.op (oracle n)) := by
      rw [hround]
    have hlen1 : (workerRound s (oracle n)).queue.length = n := by
      rw [hq1]
      have := popMin_length hpop
      omega
    have hwf1 : WellFormed (workerRound s (oracle n)) := by
      constructor
      · intro c2 hc2
        rw [hf1]
        exact resolve_isSome (hwf.1 c2 (popMin_rest_subset hpop (hq1 ▸ hc2)))
      · intro c2 hc2
        rw [hx1] at hc2
        cases hc2
    show isDone (flookup cmd.future
      (runWorker (workerRound s (oracle n)) oracle n).futures) = true
    rcases List.mem_cons.mp ((popMin_perm hpop).subset hmem) with rfl | hrest
    · rcases Option.isSome_iff_exists.mp (hwf.1 cmd hmem) with ⟨st, hst⟩
      rcases flookup_resolve_resolved
        (v := workerResult cmd.op (oracle n)) hst with ⟨w, hw⟩
      have hw1 : flookup cmd.future (workerRound s (oracle n)).futures
          = some (.done w) := by rw [hf1]; exact hw
      rw [runWorker_done_preserved n _ oracle cmd.future w hw1]
      rfl
    · exact ih _ hwf1 hx1 hlen1 (hq1 ▸ hrest)

theorem statusOf_le_two (s : QueueState) (cmd : HubCommand) :
    statusOf s cmd ≤ 2 := by
  unfold statusOf
  split
  · exact Nat.le_refl 2
  · split
    · omega
    · omega

theorem statusOf_eq_two {s : QueueState} {cmd : HubCommand}
    (h : isDone (flookup cmd.future s.futures) = true) :
    statusOf s cmd = 2 := by
  unfold statusOf
  rw [if_pos h]

theorem statusOf_ge_one {s : QueueState} {cmd : HubCommand}
    (h : cmd ∈ s.executing) : 1 ≤ statusOf s cmd := by
  by_cases hd : isDone (flookup cmd.future s.futures) = true
  · rw [statusOf_eq_two hd]
    omega
  · unfold statusOf
    rw [if_neg hd, if_pos h]

theorem statusOf_mono (s : QueueState) (cmd : HubCommand) (e : Event)
    (hwf2 : cmd ∈ s.executing →
      s.executing = [cmd] ∧ (flookup cmd.future s.futures).isSome = true) :
    statusOf s cmd ≤ statusOf (step s e) cmd := by
  rcases hdone : isDone (flookup cmd.future s.futures) with _ | _
  case true =>
    rcases isDone_iff.mp hdone with ⟨v, hv⟩
    have hstep := step_done_preserved s e cmd.future v hv
    rw [statusOf_eq_two hdone, statusOf_eq_two (isDone_iff.mpr ⟨v, hstep⟩)]
  case false =>
    by_cases hmem : cmd ∈ s.executing
    · rcases hwf2 hmem with ⟨hex, hsome⟩
      have hone : statusOf s cmd ≤ 1 := by
        unfold statusOf
        rw [if_neg (by rw [hdone]; exact Bool.false_ne_true)]
        rw [if_pos hmem]
      refine hone.trans ?_
      cases e with
      | enqueueRead a n p =>
        rcases hl : rlookup (a, n) s.pendingReads with _ | c3
        · have hmiss := enqueueRead_miss s a n p hl
          have hx2 : (step s (.enqueueRead a n p)).executing = s.executing := by
            show (enqueueRead s a n p).2.executing = s.executing
            rw [hmiss]
          exact statusOf_ge_one (hx2 ▸ hmem)
        · have hhit := enqueueRead_hit s a n p c3 hl
          have hx2 : (step s (.enqueueRead a n p)).executing = s.executing := by
            show (enqueueRead s a n p).2.executing = s.executing
            rw [hhit]
          exact statusOf_ge_one (hx2 ▸ hmem)
      | enqueueWrite a vs p =>
        exact statusOf_ge_one hmem
      | startExec =>
        have heq : step s .startExec = s := by simp [step, hex]
        rw [heq]
        exact statusOf_ge_one hmem
      | finishExec out =>
        rw [finishExec_state s cmd [] out hex]
        rcases Option.isSome_iff_exists.mp hsome with ⟨st, hst⟩
        rcases flookup_resolve_resolved (v := workerResult cmd.op out) hst
          with ⟨w, hw⟩
        have : statusOf
            { s with
              futures := resolveFuture s.futures cmd.future
                (workerResult cmd.op out)
              pendingReads :=
                if cmd.op = .read then
                  s.pendingReads.filter
                    (fun p => decide (p.1 ≠ (cmd.address, cmd.length)))
                else s.pendingReads
              executing := [] } cmd = 2 :=
          statusOf_eq_two (isDone_iff.mpr ⟨w, hw⟩)
        omega
    · have : statusOf s cmd = 0 := by
        unfold statusOf
        rw [if_neg (by rw [hdone]; exact Bool.false_ne_true)]
        rw [if_neg hmem]
      rw [this]
      exact Nat.zero_le _

/-- C5: started from an idle well-formed state, running the worker for
one round per pending command resolves every pending command's future
(success or failure, from whatever the transport returns); a future once
done keeps its value unchanged across every possible step, so no command
is resolved a second time or dropped after resolution; and a command's
lifecycle position (pending, executing, resolved) never moves backward
across any step. -/
theorem C5_no_command_loss (s : QueueState) (oracle : Nat → TransportOutcome)
    (cmd : HubCommand) (hwf : WellFormed s) (hidle : s.executing = [])
    (hmem : cmd ∈ s.queue) :
    isDone (flookup cmd.future
      (runWorker s oracle s.queue.length).futures) = true ∧
    (∀ (s2 : QueueState) (e : Event) (fid : Nat) (v : Except Nat CmdResult),
      flookup fid s2.futures = some (.done v) →
      flookup fid (step s2 e).futures = some (.done v)) ∧
    (∀ (s2 : QueueState) (cmd2 : HubCommand) (e : Event),
      (cmd2 ∈ s2.executing →
        s2.executing = [cmd2] ∧ (flookup cmd2.future s2.futures).isSome = true) →
      statusOf s2 cmd2 ≤ statusOf (step s2 e) cmd2) :=
  ⟨runWorker_resolves s.queue.length s oracle cmd hwf hidle rfl hmem,
   fun s2 e fid v h => step_done_preserved s2 e fid v h,
   fun s2 cmd2 e h => statusOf_mono s2 cmd2 e h⟩

theorem C5_no_command_loss_witness :
    isDone (flookup c1ReadCmd.future
      (runWorker c1State (fun _ => TransportOutcome.pbRegs [3])
        c1State.queue.length).futures) = true :=
  (C5_no_command_loss c1State (fun _ => TransportOutcome.pbRegs [3])
    c1ReadCmd (by constructor <;> decide) rfl (by decide)).1

/-- C7 counterexample: the delayed broadcast is not bus-scoped.  The
dispatcher signal sent after a write is the hub-independent constant
string, and entities subscribe to that same constant regardless of their
hub, so an entity of a different bus receives the broadcast of a write on
bus "hub_a". -/
theorem C7_not_bus_scoped :
    notificationReaches "hub_a" "hub_b" = true ∧ "hub_a" ≠ "hub_b" := by
  constructor
  · rfl
  · decide

/-- C7 (amended): after a successful write, exactly one one-shot
notification is scheduled, with delay exactly twice the configured poll
interval (hence it fires no earlier than 2x the poll interval after the
write resolves, exactly once); the notification is global rather than
bus-scoped: its signal does not carry the bus, so the devices of every
bus -- including those of the bus on which the write occurred -- are
notified. -/
theorem C7_write_broadcast (hub dev : String) (P : ℚ) :
    writeScheduledCalls hub P
      = [{ delay := 2 * P, signal := regUpdatedSignal }] ∧
    notificationReaches hub dev = true ∧
    notificationReaches hub hub = true := by
  refine ⟨?_, rfl, rfl⟩
  simp [writeScheduledCalls, two_mul]

/-- C9: one merge step of the bulk-range loop absorbs the next span
exactly when the gap is at most 16 registers and the resulting merged
range stays within 125 registers (the code's branch condition is
equivalent to the spec's wording whenever the current range already
respects the 125-register ceiling, which every range built from device
spans does, each device span covering at most 5 registers); merging
preserves that ceiling; and the bulk-range table keeps only ranges of at
most 125 registers. -/
theorem C9_bulk_ranges (curStart curEnd s e : Int)
    (rest spans : List (Int × Int))
    (hinv : curEnd - curStart + 1 ≤ 125) :
    (mergeCond curStart curEnd s e ↔ specMergeCond curStart curEnd s e) ∧
    (mergeCond curStart curEnd s e →
      mergeLoop curStart curEnd ((s, e) :: rest)
        = mergeLoop curStart (max curEnd e) rest ∧
      max curEnd e - curStart + 1 ≤ 125) ∧
    (¬ mergeCond curStart curEnd s e →
      mergeLoop curStart curEnd ((s, e) :: rest)
        = (curStart, curEnd - curStart + 1) :: mergeLoop s e rest) ∧
    (∀ r ∈ validRanges spans, r.2 ≤ 125) ∧
    validRanges spans
      = (computeRanges spans).filter (fun r => decide (r.2 ≤ 125)) ∧
    (∀ t a2, (deviceSpan t a2).2 - (deviceSpan t a2).1 + 1 = regCount t ∧
      regCount t ≤ 125) := by
  refine ⟨?_, ?_, ?_, ?_, rfl, ?_⟩
  · unfold mergeCond specMergeCond
    rcases le_total curEnd e with h | h
    · rw [max_eq_right h]
    · rw [max_eq_left h]
      constructor
      · rintro ⟨h1, h2⟩
        exact ⟨h1, by omega⟩
      · rintro ⟨h1, h2⟩
        exact ⟨h1, by omega⟩
  · intro hc
    constructor
    · simp only [mergeLoop]
      rw [if_pos hc]
    · rcases hc with ⟨h1, h2⟩
      rcases le_total curEnd e with h | h
      · rw [max_eq_right h]; omega
      · rw [max_eq_left h]; omega
  · intro hc
    simp only [mergeLoop]
    rw [if_neg hc]
  · intro r hr
    have hmem := List.mem_filter.mp hr
    exact of_decide_eq_true hmem.2
  · intro t a2
    cases t <;> simp only [deviceSpan, regCount] <;> omega

theorem C9_bulk_ranges_witness :
    mergeCond 0 4 10 11 ↔ specMergeCond 0 4 10 11 :=
  (C9_bulk_ranges 0 4 10 11 [] [(0, 4), (10, 11)] (by omega)).1

end ISYGLT
